import Mathlib

/-!
A verification development for the declarative skill installer of
`skills.nix` (`src/lib/install.mjs`).  The installer reconciles a manifest
of skill sources against the filesystem: it fetches each source (with a
remote-hash cache for git sources), discovers skill directories by their
`SKILL.md` marker file, filters them, installs them to agent directories,
and persists a per-source state record.

The definitions below are a shallow embedding of the functions of
`install.mjs`: strings model file contents and paths, an inductive tree
models directory structure, and per-source "world" records model the
outcomes of the external calls (git, filesystem) that a run observes.
-/

namespace SkillsNix

/-! ### Character classes used by the frontmatter regexes

`parseSkillMd` uses a JS regex extracting the block between a leading
`---` line and the next `---` line, and the per-line regex
`^(\w[\w-]*)\s*:\s*(.+)$`.  `\w` is `[A-Za-z0-9_]`; `\s` is modelled by
its ASCII members (space, tab, CR, LF, vertical tab, form feed); `.`
matches everything but line terminators. -/

def isWordChar (c : Char) : Bool :=
  ('a' ≤ c && c ≤ 'z') || ('A' ≤ c && c ≤ 'Z') || ('0' ≤ c && c ≤ '9') || c = '_'

def isKeyChar (c : Char) : Bool :=
  isWordChar c || c = '-'

def isJsSpace (c : Char) : Bool :=
  c = ' ' || c = '\t' || c = '\r' || c = '\n' || c = '\x0b' || c = '\x0c'

def isDotChar (c : Char) : Bool :=
  !(c = '\n' || c = '\r')

def isHexChar (c : Char) : Bool :=
  ('a' ≤ c && c ≤ 'f') || ('0' ≤ c && c ≤ '9')

def isQuoteChar (c : Char) : Bool :=
  c = '"' || c = '\''

/-- ASCII case table for `String.prototype.toLowerCase` (the manifest and
unit names the installer handles are ASCII). -/
def charLower (c : Char) : Char :=
  match c with
  | 'A' => 'a' | 'B' => 'b' | 'C' => 'c' | 'D' => 'd' | 'E' => 'e'
  | 'F' => 'f' | 'G' => 'g' | 'H' => 'h' | 'I' => 'i' | 'J' => 'j'
  | 'K' => 'k' | 'L' => 'l' | 'M' => 'm' | 'N' => 'n' | 'O' => 'o'
  | 'P' => 'p' | 'Q' => 'q' | 'R' => 'r' | 'S' => 's' | 'T' => 't'
  | 'U' => 'u' | 'V' => 'v' | 'W' => 'w' | 'X' => 'x' | 'Y' => 'y'
  | 'Z' => 'z' | c => c

/-- Model of `s.toLowerCase()`. -/
def jsToLower (s : String) : String :=
  String.mk (s.toList.map charLower)

/-- Model of the quote-stripping `value.replace` call: remove one leading
and one trailing quote character (matched at the positions of the
original string). -/
def stripQuotes (s : String) : String :=
  match s.toList with
  | [] => ""
  | [c] => if isQuoteChar c then "" else String.mk [c]
  | l =>
    let l1 := if isQuoteChar (l.headD ' ') then l.drop 1 else l
    let l2 := if isQuoteChar (l.getLastD ' ') then l1.dropLast else l1
    String.mk l2

/-- One frontmatter line, per `line.match(/^(\w[\w-]*)\s*:\s*(.+)$/)`.
The greedy `\s*` before `(.+)$` backtracks by exactly one character when
everything after the colon is whitespace, leaving a single-character
value; `.` cannot match CR/LF, so a line whose tail contains one of them
does not match at all. -/
def parseLine (l : List Char) : Option (String × String) :=
  match l with
  | [] => none
  | c :: _ =>
    if !isWordChar c then none
    else
      let key := l.takeWhile isKeyChar
      match (l.dropWhile isKeyChar).dropWhile isJsSpace with
      | ':' :: r =>
        let t := r.dropWhile isJsSpace
        if t ≠ [] then
          if t.all isDotChar then some (String.mk key, String.mk t) else none
        else
          match r.getLast? with
          | some c2 => if isDotChar c2 then some (String.mk key, String.mk [c2]) else none
          | none => none
      | _ => none

/-- Last-write-wins lookup, modelling repeated `fm[key] = value`
assignments into a JS object followed by a property read. -/
def fmLookup (pairs : List (String × String)) (k : String) : Option String :=
  pairs.foldl (fun acc p => if p.1 = k then some p.2 else acc) none

/-- A discovered content unit: `{ name, description, path: dirname(path) }`.
The path is the directory holding the `SKILL.md`, as a component list. -/
structure Skill where
  name : String
  description : String
  path : List String
deriving Repr, DecidableEq

/-- Lazy frontmatter body: the shortest prefix that is followed by the
closing marker `"\n---"`; `none` when no closing marker exists, in which
case the frontmatter regex fails. -/
def takeUntilFmEnd : List Char → Option (List Char)
  | '\n' :: '-' :: '-' :: '-' :: _ => some []
  | [] => none
  | c :: rest => (takeUntilFmEnd rest).map (c :: ·)

/-- Split the frontmatter body into its lines (the `split("\n")` call). -/
def splitLines : List Char → List (List Char)
  | [] => [[]]
  | '\n' :: rest => [] :: splitLines rest
  | c :: rest =>
    match splitLines rest with
    | l :: ls => (c :: l) :: ls
    | [] => [[c]]

/-- Model of `parseSkillMd`: extract the leading frontmatter block (the lazy match
takes the text up to the first `"\n---"` after the opening `"---\n"`),
parse its `key: value` lines, strip surrounding quotes, and require truthy
`name` and `description`. -/
def parseSkillMd (dir : List String) (content : String) : Option Skill :=
  match content.toList with
  | '-' :: '-' :: '-' :: '\n' :: rest =>
    match takeUntilFmEnd rest with
    | none => none
    | some fm =>
      let pairs := (splitLines fm).filterMap
        (fun ln => (parseLine ln).map (fun kv => (kv.1, stripQuotes kv.2)))
      match fmLookup pairs "name", fmLookup pairs "description" with
      | some n, some d => if n ≠ "" && d ≠ "" then some ⟨n, d, dir⟩ else none
      | _, _ => none
  | _ => none

/-! ### Directory trees and skill discovery -/

mutual
/-- A directory: an optional `SKILL.md` content (present iff the marker
file exists) and the subdirectories in `readdirSync` order.  Non-directory
entries other than `SKILL.md` are irrelevant to discovery and omitted. -/
inductive DirTree where
  | node : Option String → DirForest → DirTree
/-- The subdirectories of a directory, in directory-entry order. -/
inductive DirForest where
  | nil : DirForest
  | cons : String → DirTree → DirForest → DirForest
end

mutual
/-- Model of `scanDir` inside `findSkillsInDir`, on one directory.  The accumulator is
the `(skills, seen)` pair mutated by the closure: the skill list in
discovery order and the set of names already pushed. -/
def scanTree (fullDepth : Bool) (path : List String) (t : DirTree)
    (acc : List Skill × List String) : List Skill × List String :=
  match t with
  | .node md children =>
    match md with
    | some content =>
      let acc1 :=
        match parseSkillMd path content with
        | some s =>
          if acc.2.contains s.name then acc else (acc.1 ++ [s], acc.2 ++ [s.name])
        | none => acc
      if fullDepth then scanForest fullDepth path children acc1 else acc1
    | none => scanForest fullDepth path children acc
/-- The `readdirSync` loop of `scanDir`: recurse into each subdirectory,
skipping `.git` and `node_modules`. -/
def scanForest (fullDepth : Bool) (path : List String) (f : DirForest)
    (acc : List Skill × List String) : List Skill × List String :=
  match f with
  | .nil => acc
  | .cons n c rest =>
    let acc1 :=
      if n = ".git" || n = "node_modules" then acc
      else scanTree fullDepth (path ++ [n]) c acc
    scanForest fullDepth path rest acc1
end

/-- Model of `findSkillsInDir(dir, fullDepth)`. -/
def findSkillsInDir (t : DirTree) (fullDepth : Bool) : List Skill :=
  (scanTree fullDepth [] t ([], [])).1

/-! ### Remote hash introspection (`getRemoteCommitHash`) -/

/-- First attempt: match the start-anchored regex capturing a leading run
of `[a-f0-9]` characters of the `git ls-remote --heads <url> HEAD`
output; `null` when the run is empty. -/
def leadingHex (out : String) : Option String :=
  let h := out.toList.takeWhile isHexChar
  if h.isEmpty then none else some (String.mk h)

/-- Fallback regex, one anchor position: a nonempty hex run, then a
nonempty whitespace run (which, under the multiline flag, may include
newlines), then the literal `HEAD`, then a line end (end of input or a
line terminator). -/
def matchHeadAt (l : List Char) : Option (List Char) :=
  let hex := l.takeWhile isHexChar
  if hex.isEmpty then none
  else
    let r1 := l.dropWhile isHexChar
    if (r1.takeWhile isJsSpace).isEmpty then none
    else
      match r1.dropWhile isJsSpace with
      | 'H' :: 'E' :: 'A' :: 'D' :: rest =>
        match rest with
        | [] => some hex
        | c :: _ => if c = '\n' || c = '\r' then some hex else none
      | _ => none

/-- Scan the multiline-anchored fallback regex across the output: the
regex engine tries successive positions, and the start anchor restricts
matches to line starts (position 0 or just after a newline); the first
match's hex capture wins. -/
def searchHeadAux (atStart : Bool) : List Char → Option (List Char)
  | [] => none
  | c :: rest =>
    match if atStart then matchHeadAt (c :: rest) else none with
    | some h => some h
    | none => searchHeadAux (c = '\n') rest

/-- Entry point of the fallback-regex scan, starting at a line start. -/
def searchHead (l : List Char) : Option (List Char) :=
  searchHeadAux true l

/-- Model of `getRemoteCommitHash`.  `lsHeads` is the output of the first
`git ls-remote` call (`none` when the command threw, which triggers the
fallback call whose output is `lsAll`). -/
def getRemoteCommitHash (lsHeads lsAll : Option String) : Option String :=
  match lsHeads with
  | some out => leadingHex out
  | none =>
    match lsAll with
    | some out => (searchHead out.toList).map String.mk
    | none => none

/-! ### State record and manifest entries -/

/-- One value of the persisted state mapping:
`{ skills, agents, commitHash }`.  `commitHash` is `none` for JS `null`
(and JS truthiness additionally treats `some ""` as falsy). -/
structure StateEntry where
  skills : List String
  agents : List String
  commitHash : Option String
deriving Repr, DecidableEq

/-- One manifest source entry.  The destructuring in `processEntry` reads
only `source`, `agents` (default `["*"]`), `skill` (default `[]`) and
`fullDepth` (default `true`); any other key of the JSON object — such as
an `exclude` list — is ignored, and we carry one such key to be able to
state claims about it. -/
structure Entry where
  source : String
  agents : List String
  skill : List String
  fullDepth : Bool
  exclude : List String
deriving Repr, DecidableEq

/-- Result of `prepareSource`: either the cache-skip signal
`{ cached: true, commitHash }`, or a directory handle
`{ dir, commitHash, isLocal }` (a fresh temporary clone when
`isLocal = false`, whose `cleanup` closure removes it). -/
inductive Prepared where
  | cached : String → Prepared
  | dir : DirTree → Option String → Bool → Prepared

/-- The outcomes of the external calls one source's processing can
observe in a run: whether `isLocalSource` holds, what resolving the local
path yields (`error` models a thrown exception), the outputs of the two
`git ls-remote` attempts (`none` models a thrown command), the result of
`git clone` plus the cloned tree's `git rev-parse HEAD`, and whether the
k-th `installSkill` call throws. -/
structure SourceWorld where
  isLocal : Bool
  localPath : Except Unit (DirTree × Option String)
  lsHeads : Option String
  lsAll : Option String
  clone : Except Unit (DirTree × Option String)
  installFails : Option Nat

/-- The cache check of `prepareSource`: skip only when the force flag is
unset, the prior record has this source with a truthy commit hash, and
the remote hash query returns a truthy hash equal to it. -/
def cachedCheck (force : Bool) (old : String → Option StateEntry)
    (source : String) (w : SourceWorld) : Option String :=
  if force then none
  else
    match old source with
    | none => none
    | some oldEntry =>
      match oldEntry.commitHash with
      | none => none
      | some c =>
        if c = "" then none
        else
          match getRemoteCommitHash w.lsHeads w.lsAll with
          | none => none
          | some remoteHash =>
            if remoteHash ≠ "" && remoteHash = c then some remoteHash else none

/-- Model of `prepareSource`: local sources always return a full result;
remote sources first try the cache, then clone. -/
def prepareSource (force : Bool) (old : String → Option StateEntry)
    (source : String) (w : SourceWorld) : Except Unit Prepared :=
  if w.isLocal then
    match w.localPath with
    | .error _ => .error ()
    | .ok (t, h) => .ok (.dir t h true)
  else
    match cachedCheck force old source w with
    | some h => .ok (.cached h)
    | none =>
      match w.clone with
      | .error _ => .error ()
      | .ok (t, h) => .ok (.dir t h false)

/-- The skill filter step of `processEntry`: an explicit, wildcard-free
list keeps exactly the skills whose lowercased name is among the
lowercased filter entries; otherwise no filtering. -/
def filterSkills (skillFilter : List String) (skills : List Skill) : List Skill :=
  if skillFilter.length > 0 && !skillFilter.contains "*" then
    let filterSet := skillFilter.map jsToLower
    skills.filter (fun s => filterSet.contains (jsToLower s.name))
  else skills

/-- Observable outcome of `processEntry` for one source: the write it
performs into `newState` (`none` = no write), its increments of the three
run counters, whether `prepared.cleanup` was invoked, and whether a
temporary clone directory exists for this source. -/
structure POut where
  entryUpdate : Option StateEntry
  installed : Nat
  skipped : Nat
  failed : Nat
  cleanupCalled : Bool
  hadTmp : Bool
deriving Repr, DecidableEq

/-- Model of `processEntry`: prepare the source; on the cache signal copy
the old entry forward and count a skip; otherwise discover and filter
skills, drop the source entirely when none remain, install the rest and
record the new entry; any thrown error is caught, carries the old entry
forward when one exists, and counts a failure. -/
def processEntry (force : Bool) (old : String → Option StateEntry)
    (e : Entry) (w : SourceWorld) : POut :=
  match prepareSource force old e.source w with
  | .error _ =>
    { entryUpdate := old e.source, installed := 0, skipped := 0, failed := 1,
      cleanupCalled := false, hadTmp := false }
  | .ok (.cached _) =>
    { entryUpdate := old e.source, installed := 0, skipped := 1, failed := 0,
      cleanupCalled := false, hadTmp := false }
  | .ok (.dir tree hash isLoc) =>
    let skills := filterSkills e.skill (findSkillsInDir tree e.fullDepth)
    if skills.isEmpty then
      { entryUpdate := none, installed := 0, skipped := 0, failed := 0,
        cleanupCalled := true, hadTmp := !isLoc }
    else
      match w.installFails with
      | some k =>
        if k < skills.length then
          { entryUpdate := old e.source, installed := k, skipped := 0, failed := 1,
            cleanupCalled := false, hadTmp := !isLoc }
        else
          { entryUpdate := some ⟨skills.map Skill.name, e.agents, hash⟩,
            installed := skills.length, skipped := 0, failed := 0,
            cleanupCalled := true, hadTmp := !isLoc }
      | none =>
        { entryUpdate := some ⟨skills.map Skill.name, e.agents, hash⟩,
          installed := skills.length, skipped := 0, failed := 0,
          cleanupCalled := true, hadTmp := !isLoc }

/-- The three per-source counters of the run summary that the install
phase touches. -/
structure Stats where
  installed : Nat
  skipped : Nat
  failed : Nat
deriving Repr, DecidableEq

/-- One settled task's effect on the shared `newState` object and the
counters. -/
def runStep (force : Bool) (old : String → Option StateEntry)
    (st : (String → Option StateEntry) × Stats) (j : Entry × SourceWorld) :
    (String → Option StateEntry) × Stats :=
  let r := processEntry force old j.1 j.2
  (match r.entryUpdate with
   | some v => Function.update st.1 j.1.source (some v)
   | none => st.1,
   ⟨st.2.installed + r.installed, st.2.skipped + r.skipped,
    st.2.failed + r.failed⟩)

/-- The parallel Fetch+Install phase over all manifest entries.  Each
task writes only its own key of `newState` (starting from the empty
object) and bumps the shared counters; the fold order models one
completion order of the settled tasks. -/
def runEntries (force : Bool) (old : String → Option StateEntry)
    (jobs : List (Entry × SourceWorld)) : (String → Option StateEntry) × Stats :=
  jobs.foldl (runStep force old) ((fun _ => none), ⟨0, 0, 0⟩)

/-! ### Raw discovery and first-wins deduplication (specification side)

These two definitions follow the specification's words — "first
occurrence of a given unit name (by discovery order) wins; later
directories with the same name are silently ignored" — for comparison
with the deduplication `findSkillsInDir` actually performs via its `seen`
set.  The raw scan is the same traversal with the `seen` check removed
(the traversal cut never consults `seen`). -/

mutual
/-- Every parsed unit in depth-first discovery order, duplicates kept. -/
def rawScanTree (fullDepth : Bool) (path : List String) : DirTree → List Skill
  | .node md children =>
    match md with
    | some content =>
      let here :=
        match parseSkillMd path content with
        | some s => [s]
        | none => []
      if fullDepth then here ++ rawScanForest fullDepth path children else here
    | none => rawScanForest fullDepth path children
/-- Raw scan of a forest of subdirectories, in entry order. -/
def rawScanForest (fullDepth : Bool) (path : List String) : DirForest → List Skill
  | .nil => []
  | .cons n c rest =>
    (if n = ".git" || n = "node_modules" then []
     else rawScanTree fullDepth (path ++ [n]) c)
      ++ rawScanForest fullDepth path rest
end

/-- Keep a skill only when no earlier kept skill has its name. -/
def insertFirst (acc : List Skill) (s : Skill) : List Skill :=
  if (acc.map Skill.name).contains s.name then acc else acc ++ [s]

/-- First-occurrence-wins deduplication by unit name. -/
def keepFirstByName (l : List Skill) : List Skill :=
  l.foldl insertFirst []

/-! ### Symlink-mode propagation (`createSymlink`, `installToAgent`) -/

/-- What occupies the target path of one agent directory: nothing, a
symbolic link (carrying what it resolves to), an ordinary file or
directory, or a recursive copy produced by `copyDir` from a source. -/
inductive Occupant where
  | absent : Occupant
  | link : String → Occupant
  | nonLink : Occupant
  | copyOf : String → Occupant
deriving Repr, DecidableEq

/-- Observable outcome of `createSymlink`: its boolean result, what ends
up at the link path, whether a pre-existing occupant was removed first,
and whether the failure warning was logged. -/
structure LinkResult where
  ok : Bool
  final : Occupant
  removedExisting : Bool
  warned : Bool
deriving Repr, DecidableEq

/-- Model of `createSymlink(target, linkPath)`.  `resolvedTarget` and
`resolvedLink` are the two `resolve` results; `occ` is what `lstatSync`
finds at the link path (`absent` models the throw caught by the empty
handler); `symlinkOk` is whether `symlinkSync` succeeds.  A created link
resolves to `resolvedTarget` (the relative path is computed against it). -/
def createSymlink (resolvedTarget resolvedLink : String) (occ : Occupant)
    (symlinkOk : Bool) : LinkResult :=
  if resolvedTarget = resolvedLink then ⟨true, occ, false, false⟩
  else
    let removed : Bool :=
      match occ with
      | .link existing => existing ≠ resolvedTarget
      | .absent => false
      | .nonLink => true
      | .copyOf _ => true
    match occ with
    | .link existing =>
      if existing = resolvedTarget then ⟨true, occ, false, false⟩
      else if symlinkOk then ⟨true, .link resolvedTarget, removed, false⟩
      else ⟨false, .absent, removed, true⟩
    | _ =>
      if symlinkOk then ⟨true, .link resolvedTarget, removed, false⟩
      else ⟨false, if removed then .absent else occ, removed, true⟩

/-- One source fails when `prepareSource` throws (missing local path or
clone failure) or when an `installSkill` call throws inside the install
loop; both land in the `catch` block of `processEntry`. -/
def processFails (force : Bool) (old : String → Option StateEntry)
    (e : Entry) (w : SourceWorld) : Prop :=
  prepareSource force old e.source w = .error () ∨
  ∃ t hsh lcl, prepareSource force old e.source w = .ok (.dir t hsh lcl) ∧
    filterSkills e.skill (findSkillsInDir t e.fullDepth) ≠ [] ∧
    ∃ k, w.installFails = some k ∧
      k < (filterSkills e.skill (findSkillsInDir t e.fullDepth)).length

/-- Observable outcome of `installToAgent` for one agent target. -/
structure InstallResult where
  final : Occupant
  fellBack : Bool
  skippedSelf : Bool
deriving Repr, DecidableEq

/-- Model of `installToAgent`: skip a target resolving to the canonical
store itself; in copy mode clear and copy; otherwise attempt the
symlink and on failure fall back to a cleared recursive copy plus a
warning. -/
def installToAgent (canonicalPath : String)
    (agentDirResolved canonicalDirResolved : String)
    (targetPathResolved : String) (targetOcc : Occupant)
    (mode : String) (symlinkOk : Bool) : InstallResult :=
  if agentDirResolved = canonicalDirResolved then ⟨targetOcc, false, true⟩
  else if mode = "copy" then ⟨.copyOf canonicalPath, false, false⟩
  else
    let r := createSymlink canonicalPath targetPathResolved targetOcc symlinkOk
    if r.ok then ⟨r.final, false, false⟩
    else ⟨.copyOf canonicalPath, true, false⟩

/-! ### Concrete fixtures

Small `SKILL.md` contents, directory trees, manifest entries and worlds
used by the concrete instances of the properties below. -/

def mdRoot : String := "---\nname: root\ndescription: r\n---\n"

def mdNested : String := "---\nname: nested\ndescription: n\n---\n"

def mdA : String := "---\nname: a\ndescription: d\n---\n"

def mdB : String := "---\nname: b\ndescription: d\n---\n"

def mdC : String := "---\nname: c\ndescription: d\n---\n"

/-- A root-level marker plus another marker two levels down. -/
def depthTree : DirTree :=
  .node (some mdRoot)
    (.cons "a" (.node none (.cons "b" (.node (some mdNested) .nil) .nil)) .nil)

def treeA : DirTree := .node (some mdA) .nil

def treeB : DirTree := .node (some mdB) .nil

/-- A root with three skill subdirectories named `a`, `b`, `c`. -/
def treeABC : DirTree :=
  .node none
    (.cons "a" (.node (some mdA) .nil)
      (.cons "b" (.node (some mdB) .nil)
        (.cons "c" (.node (some mdC) .nil) .nil)))

def treeEmpty : DirTree := .node none .nil

/-- A world for a local source resolving to the given tree (local
sources get their hash from `git rev-parse`, here a non-repository). -/
def localWorld (t : DirTree) : SourceWorld :=
  ⟨true, .ok (t, none), none, none, .error (), none⟩

/-- A world for a remote source whose clone succeeds. -/
def cloneWorld (t : DirTree) (h : String) : SourceWorld :=
  ⟨false, .error (), none, none, .ok (t, some h), none⟩

/-- A world for a remote source where both remote calls and the clone
fail. -/
def failWorld : SourceWorld :=
  ⟨false, .error (), none, none, .error (), none⟩

/-- A manifest entry with all defaulted fields. -/
def entryPlain (src : String) : Entry := ⟨src, ["*"], [], true, []⟩

/-- The C1 scenario: include list `{a, c}` and an (ignored) `exclude`
key `{c}` in the manifest object. -/
def entryC1 : Entry := ⟨"src1", ["*"], ["a", "c"], true, ["c"]⟩

def c5entry : Entry := entryPlain "r5"

/-- A clone that succeeds followed by an `installSkill` throw on the
first skill. -/
def c5world : SourceWorld :=
  ⟨false, .error (), none, none, .ok (treeA, some "abc123"), some 0⟩

/-- The same world with the install loop succeeding. -/
def c5worldOk : SourceWorld :=
  ⟨false, .error (), none, none, .ok (treeA, some "abc123"), none⟩

/-- A prior state with one recorded remote source `s3`. -/
def old3 : String → Option StateEntry :=
  fun s => if s = "s3" then some ⟨["a"], ["*"], some "abc123"⟩ else none

/-- A remote world whose first `ls-remote` call reports hash `abc123`. -/
def w3 : SourceWorld :=
  ⟨false, .error (), some "abc123\trefs/heads/main\n", none, .error (), none⟩

/-- A prior state with one recorded entry for source `g2`. -/
def old2 : String → Option StateEntry :=
  fun s => if s = "g2" then some ⟨["keep"], ["*"], some "dead01"⟩ else none

/-- Three desired sources; the middle one fails its clone. -/
def c2jobs : List (Entry × SourceWorld) :=
  [(entryPlain "g1", cloneWorld treeA "abc123"),
   (entryPlain "g2", failWorld),
   (entryPlain "g3", cloneWorld treeB "beef02")]

/-- First run of the idempotence scenario: one remote source, cloned. -/
def c4jobs1 : List (Entry × SourceWorld) :=
  [(entryPlain "r1", cloneWorld treeA "abc123")]

/-- Second run: same manifest, remote still at `abc123`. -/
def c4jobs2 : List (Entry × SourceWorld) :=
  [(entryPlain "r1",
    ⟨false, .error (), some "abc123\trefs/heads/main\n", none, .error (), none⟩)]

/-- A manifest with one local source: its second run re-installs. -/
def c4jobsL : List (Entry × SourceWorld) :=
  [(entryPlain "l1", localWorld treeA)]

def skA : Skill := ⟨"a", "d", []⟩

def skB : Skill := ⟨"b", "d", []⟩

/-- A marker with the same name `a` but different content than `mdA`. -/
def mdA2 : String := "---
name: a
description: other
---
more"

/-- Two candidate directories yielding the same unit name `a`. -/
def dupTree : DirTree :=
  .node none
    (.cons "x" (.node (some mdA) .nil)
      (.cons "y" (.node (some mdA2) .nil) .nil))

/-! ### Helper lemmas -/

theorem mk_ne_empty {l : List Char} (h : l ≠ []) : String.mk l ≠ "" := by
  intro heq
  apply h
  simpa using congrArg String.data heq

theorem leadingHex_ne_empty {out : String} {h : String}
    (heq : leadingHex out = some h) : h ≠ "" := by
  simp only [leadingHex] at heq
  split at heq
  · exact absurd heq (by simp)
  · next hne =>
    obtain rfl : String.mk (out.toList.takeWhile isHexChar) = h := by
      simpa using heq
    exact mk_ne_empty (by simpa using hne)

theorem matchHeadAt_ne_nil {l hx : List Char}
    (heq : matchHeadAt l = some hx) : hx ≠ [] := by
  simp only [matchHeadAt] at heq
  split at heq
  · exact absurd heq (by simp)
  · next hne =>
    split at heq
    · exact absurd heq (by simp)
    · split at heq
      · split at heq
        · obtain rfl : l.takeWhile isHexChar = hx := by simpa using heq
          simpa using hne
        · split at heq
          · obtain rfl : l.takeWhile isHexChar = hx := by simpa using heq
            simpa using hne
          · exact absurd heq (by simp)
      · exact absurd heq (by simp)

theorem searchHeadAux_some {hx : List Char} :
    ∀ (b : Bool) (l : List Char), searchHeadAux b l = some hx →
      ∃ l', matchHeadAt l' = some hx := by
  intro b l
  induction l generalizing b with
  | nil => intro h; simp [searchHeadAux] at h
  | cons c rest ih =>
    intro h
    unfold searchHeadAux at h
    split at h
    · next hm =>
      cases b with
      | false => simp at hm
      | true =>
        simp at hm
        exact ⟨c :: rest, hm.trans h⟩
    · exact ih _ h

theorem getRemoteCommitHash_ne_empty {a b : Option String} {h : String}
    (heq : getRemoteCommitHash a b = some h) : h ≠ "" := by
  unfold getRemoteCommitHash at heq
  match a, heq with
  | some out, heq => exact leadingHex_ne_empty heq
  | none, heq =>
    match b, heq with
    | none, heq => simp at heq
    | some out, heq =>
      rw [Option.map_eq_some'] at heq
      obtain ⟨hx, hs, rfl⟩ := heq
      obtain ⟨l', hm⟩ := searchHeadAux_some _ _ hs
      exact mk_ne_empty (matchHeadAt_ne_nil hm)

theorem cachedCheck_some_iff {force : Bool} {old : String → Option StateEntry}
    {source : String} {w : SourceWorld} {h : String} :
    cachedCheck force old source w = some h ↔
      force = false ∧ ∃ en, old source = some en ∧ en.commitHash = some h ∧
        h ≠ "" ∧ getRemoteCommitHash w.lsHeads w.lsAll = some h := by
  constructor
  · intro hp
    cases force with
    | true => simp [cachedCheck] at hp
    | false =>
      refine ⟨rfl, ?_⟩
      simp only [cachedCheck, Bool.false_eq_true, if_false] at hp
      split at hp
      · exact absurd hp (by simp)
      · next en hen =>
        split at hp
        · exact absurd hp (by simp)
        · next c hh =>
          split at hp
          · exact absurd hp (by simp)
          · next hce =>
            split at hp
            · exact absurd hp (by simp)
            · next r hr =>
              split at hp
              · next hrc =>
                simp only [Option.some.injEq] at hp
                subst hp
                obtain ⟨hr1, hr2⟩ : r ≠ "" ∧ r = c := by simpa using hrc
                subst hr2
                exact ⟨en, hen, hh, hr1, hr⟩
              · exact absurd hp (by simp)
  · rintro ⟨hf, en, hen, hh, hne, hr⟩
    subst hf
    simp [cachedCheck, hen, hh, hne, hr]

theorem prepareSource_cached_iff {force : Bool}
    {old : String → Option StateEntry} {source : String} {w : SourceWorld}
    {h : String} (hl : w.isLocal = false) :
    prepareSource force old source w = .ok (.cached h) ↔
      cachedCheck force old source w = some h := by
  simp only [prepareSource, hl, Bool.false_eq_true, if_false]
  cases hc : cachedCheck force old source w with
  | some h2 =>
    constructor
    · intro hp
      simp at hp
      exact congrArg some hp
    · intro hp
      simp only [Option.some.injEq] at hp
      rw [hp]
  | none =>
    constructor
    · intro hp
      rcases hcl : w.clone with _ | ⟨t, hsh⟩ <;> rw [hcl] at hp <;> simp at hp
    · intro hp
      simp at hp

theorem prepareSource_cached_of {old : String → Option StateEntry}
    {source : String} {w : SourceWorld} {en : StateEntry} {h : String}
    (hl : w.isLocal = false) (hen : old source = some en)
    (hh : en.commitHash = some h) (hne : h ≠ "")
    (hr : getRemoteCommitHash w.lsHeads w.lsAll = some h) :
    prepareSource false old source w = .ok (.cached h) :=
  (prepareSource_cached_iff hl).mpr
    (cachedCheck_some_iff.mpr ⟨rfl, en, hen, hh, hne, hr⟩)

theorem prepareSource_cached_inv {force : Bool}
    {old : String → Option StateEntry} {source : String} {w : SourceWorld}
    {h : String}
    (hp : prepareSource force old source w = .ok (.cached h)) :
    w.isLocal = false ∧ force = false ∧
    ∃ en, old source = some en ∧ en.commitHash = some h ∧ h ≠ "" ∧
      getRemoteCommitHash w.lsHeads w.lsAll = some h := by
  have hl : w.isLocal = false := by
    by_cases hl : w.isLocal
    · exfalso
      simp only [prepareSource, if_pos hl] at hp
      rcases hlp : w.localPath with _ | ⟨t, hsh⟩ <;> rw [hlp] at hp <;>
        simp at hp
    · simpa using hl
  exact ⟨hl, cachedCheck_some_iff.mp ((prepareSource_cached_iff hl).mp hp)⟩

theorem prepareSource_clone {force : Bool}
    {old : String → Option StateEntry} {source : String} {w : SourceWorld}
    (hl : w.isLocal = false) (hnc : cachedCheck force old source w = none) :
    prepareSource force old source w =
      (match w.clone with
       | .error _ => .error ()
       | .ok (t, hsh) => .ok (.dir t hsh false)) := by
  simp only [prepareSource, hl, Bool.false_eq_true, if_false, hnc]

theorem processEntry_cached {force : Bool} {old : String → Option StateEntry}
    {e : Entry} {w : SourceWorld} {h : String}
    (hp : prepareSource force old e.source w = .ok (.cached h)) :
    processEntry force old e w = ⟨old e.source, 0, 1, 0, false, false⟩ := by
  simp [processEntry, hp]

theorem processEntry_err {force : Bool} {old : String → Option StateEntry}
    {e : Entry} {w : SourceWorld}
    (hp : prepareSource force old e.source w = .error ()) :
    processEntry force old e w = ⟨old e.source, 0, 0, 1, false, false⟩ := by
  simp [processEntry, hp]

theorem processEntry_installFail {force : Bool}
    {old : String → Option StateEntry} {e : Entry} {w : SourceWorld}
    {t : DirTree} {hsh : Option String} {lcl : Bool} {k : Nat}
    (hp : prepareSource force old e.source w = .ok (.dir t hsh lcl))
    (hne : filterSkills e.skill (findSkillsInDir t e.fullDepth) ≠ [])
    (hk : w.installFails = some k)
    (hlt : k < (filterSkills e.skill (findSkillsInDir t e.fullDepth)).length) :
    processEntry force old e w = ⟨old e.source, k, 0, 1, false, !lcl⟩ := by
  simp [processEntry, hp, hk, hne, hlt]

theorem processEntry_zero {force : Bool} {old : String → Option StateEntry}
    {e : Entry} {w : SourceWorld} {t : DirTree} {hsh : Option String}
    {lcl : Bool}
    (hp : prepareSource force old e.source w = .ok (.dir t hsh lcl))
    (hz : filterSkills e.skill (findSkillsInDir t e.fullDepth) = []) :
    processEntry force old e w = ⟨none, 0, 0, 0, true, !lcl⟩ := by
  simp [processEntry, hp, hz]

theorem foldl_runStep_stats (force : Bool) (old : String → Option StateEntry)
    (jobs : List (Entry × SourceWorld)) :
    ∀ init : (String → Option StateEntry) × Stats,
      (jobs.foldl (runStep force old) init).2 =
        ⟨init.2.installed +
           (jobs.map fun j => (processEntry force old j.1 j.2).installed).sum,
         init.2.skipped +
           (jobs.map fun j => (processEntry force old j.1 j.2).skipped).sum,
         init.2.failed +
           (jobs.map fun j => (processEntry force old j.1 j.2).failed).sum⟩ := by
  induction jobs with
  | nil => intro init; simp
  | cons a rest ih =>
    intro init
    rw [List.foldl_cons, ih]
    simp only [List.map_cons, List.sum_cons, runStep, Stats.mk.injEq]
    refine ⟨by omega, by omega, by omega⟩

theorem foldl_runStep_nowrite (force : Bool) (old : String → Option StateEntry)
    (jobs : List (Entry × SourceWorld)) (s : String)
    (h : ∀ j ∈ jobs, j.1.source ≠ s) :
    ∀ init, ((jobs.foldl (runStep force old) init).1) s = init.1 s := by
  induction jobs with
  | nil => intro init; rfl
  | cons a rest ih =>
    intro init
    rw [List.foldl_cons, ih (fun j hj => h j (List.mem_cons_of_mem _ hj))]
    have ha := h a (List.mem_cons_self _ _)
    cases hru : (processEntry force old a.1 a.2).entryUpdate with
    | some v => simp [runStep, hru, Function.update_noteq (Ne.symm ha)]
    | none => simp [runStep, hru]

theorem foldl_runStep_mem (force : Bool) (old : String → Option StateEntry) :
    ∀ (jobs : List (Entry × SourceWorld))
      (init : (String → Option StateEntry) × Stats) (j : Entry × SourceWorld),
      j ∈ jobs → ((jobs.map fun p => p.1.source).Nodup) →
      init.1 j.1.source = none →
      ((jobs.foldl (runStep force old) init).1) j.1.source =
        (processEntry force old j.1 j.2).entryUpdate := by
  intro jobs
  induction jobs with
  | nil => intro init j hj _ _; exact absurd hj (List.not_mem_nil _)
  | cons a rest ih =>
    intro init j hj hnd hini
    simp only [List.map_cons, List.nodup_cons] at hnd
    rw [List.foldl_cons]
    rcases List.mem_cons.mp hj with rfl | hjr
    · have hnr : ∀ p ∈ rest, p.1.source ≠ j.1.source := by
        intro p hp he
        exact hnd.1 (he ▸ List.mem_map_of_mem _ hp)
      rw [foldl_runStep_nowrite force old rest _ hnr]
      cases hru : (processEntry force old j.1 j.2).entryUpdate with
      | some v => simp [runStep, hru]
      | none => simp [runStep, hru, hini]
    · have hne : a.1.source ≠ j.1.source := by
        intro he
        exact hnd.1 (he ▸ List.mem_map_of_mem _ hjr)
      apply ih _ _ hjr hnd.2
      cases hru : (processEntry force old a.1 a.2).entryUpdate with
      | some v => simp [runStep, hru, Function.update_noteq (Ne.symm hne), hini]
      | none => simp [runStep, hru, hini]

theorem foldl_runStep_cachedwrite (force : Bool)
    (old : String → Option StateEntry) :
    ∀ (jobs : List (Entry × SourceWorld)),
      (∀ j ∈ jobs,
        (processEntry force old j.1 j.2).entryUpdate = old j.1.source) →
      ∀ init s, ((jobs.foldl (runStep force old) init).1) s =
        if s ∈ jobs.map (fun p => p.1.source) ∧ (old s).isSome then old s
        else init.1 s := by
  intro jobs
  induction jobs with
  | nil => intro _ init s; simp
  | cons a rest ih =>
    intro hv init s
    rw [List.foldl_cons, ih (fun j hj => hv j (List.mem_cons_of_mem _ hj))]
    have hva := hv a (List.mem_cons_self _ _)
    by_cases h1 : s ∈ rest.map (fun p => p.1.source) ∧ (old s).isSome
    · rw [if_pos h1, if_pos ⟨by simp [h1.1], h1.2⟩]
    · rw [if_neg h1]
      cases hru : (processEntry force old a.1 a.2).entryUpdate with
      | some v =>
        have hoa : old a.1.source = some v := by rw [← hva, hru]
        by_cases hsa : s = a.1.source
        · subst hsa
          rw [if_pos ⟨by simp, by simp [hoa]⟩]
          simp [runStep, hru, hoa]
        · rw [if_neg (by
            rintro ⟨hmem, hsome⟩
            rw [List.map_cons] at hmem
            rcases List.mem_cons.mp hmem with h2 | h2
            · exact hsa h2
            · exact h1 ⟨h2, hsome⟩)]
          simp [runStep, hru, Function.update_noteq hsa]
      | none =>
        have hoa : old a.1.source = none := by rw [← hva, hru]
        by_cases hsa : s = a.1.source
        · subst hsa
          rw [if_neg (by rintro ⟨_, hsome⟩; simp [hoa] at hsome)]
          simp [runStep, hru]
        · rw [if_neg (by
            rintro ⟨hmem, hsome⟩
            rw [List.map_cons] at hmem
            rcases List.mem_cons.mp hmem with h2 | h2
            · exact hsa h2
            · exact h1 ⟨h2, hsome⟩)]
          simp [runStep, hru]

theorem sum_map_all_one {α : Type} (l : List α) (f : α → Nat)
    (h : ∀ a ∈ l, f a = 1) : (l.map f).sum = l.length := by
  induction l with
  | nil => simp
  | cons a rest ih =>
    simp only [List.map_cons, List.sum_cons, List.length_cons,
      h a (List.mem_cons_self _ _),
      ih (fun b hb => h b (List.mem_cons_of_mem _ hb))]
    omega

theorem sum_map_all_zero {α : Type} (l : List α) (f : α → Nat)
    (h : ∀ a ∈ l, f a = 0) : (l.map f).sum = 0 := by
  induction l with
  | nil => simp
  | cons a rest ih =>
    simp only [List.map_cons, List.sum_cons, List.length_cons,
      h a (List.mem_cons_self _ _),
      ih (fun b hb => h b (List.mem_cons_of_mem _ hb))]

theorem insertFirst_pair (acc : List Skill) (s : Skill) :
    (if (acc.map Skill.name).contains s.name then (acc, acc.map Skill.name)
     else (acc ++ [s], acc.map Skill.name ++ [s.name])) =
      (insertFirst acc s, (insertFirst acc s).map Skill.name) := by
  unfold insertFirst
  by_cases hc : (acc.map Skill.name).contains s.name = true
  · rw [if_pos hc, if_pos hc]
  · rw [if_neg hc, if_neg hc, List.map_append]
    rfl

mutual
theorem scanTree_eq_raw (fd : Bool) (p : List String) (t : DirTree)
    (acc : List Skill) :
    scanTree fd p t (acc, acc.map Skill.name) =
      ((rawScanTree fd p t).foldl insertFirst acc,
       ((rawScanTree fd p t).foldl insertFirst acc).map Skill.name) := by
  cases t with
  | node md children =>
    cases md with
    | none =>
      simp only [scanTree, rawScanTree]
      exact scanForest_eq_raw fd p children acc
    | some content =>
      cases hp : parseSkillMd p content with
      | none =>
        simp only [scanTree, rawScanTree, hp]
        cases fd with
        | false => simp
        | true =>
          simp only [List.nil_append, if_true]
          exact scanForest_eq_raw true p children acc
      | some s =>
        simp only [scanTree, rawScanTree, hp]
        rw [insertFirst_pair]
        cases fd with
        | false => simp [List.foldl_cons]
        | true =>
          simp only [List.singleton_append, List.foldl_cons, if_true]
          exact scanForest_eq_raw true p children (insertFirst acc s)
theorem scanForest_eq_raw (fd : Bool) (p : List String) (f : DirForest)
    (acc : List Skill) :
    scanForest fd p f (acc, acc.map Skill.name) =
      ((rawScanForest fd p f).foldl insertFirst acc,
       ((rawScanForest fd p f).foldl insertFirst acc).map Skill.name) := by
  cases f with
  | nil => simp [scanForest, rawScanForest]
  | cons n c rest =>
    by_cases hn : (n = ".git" || n = "node_modules") = true
    · simp only [scanForest, rawScanForest, hn, if_true, List.nil_append]
      exact scanForest_eq_raw fd p rest acc
    · simp only [scanForest, rawScanForest, hn, Bool.false_eq_true, if_false]
      rw [scanTree_eq_raw fd (p ++ [n]) c acc, List.foldl_append]
      exact scanForest_eq_raw fd p rest
        ((rawScanTree fd (p ++ [n]) c).foldl insertFirst acc)
end

theorem foldl_insertFirst_nodup :
    ∀ (l acc : List Skill), ((acc.map Skill.name).Nodup) →
      (((l.foldl insertFirst acc).map Skill.name).Nodup) := by
  intro l
  induction l with
  | nil => intro acc h; simpa using h
  | cons s rest ih =>
    intro acc h
    rw [List.foldl_cons]
    apply ih
    unfold insertFirst
    by_cases hc : (acc.map Skill.name).contains s.name = true
    · rw [if_pos hc]; exact h
    · rw [if_neg hc, List.map_append]
      have hnm : s.name ∉ acc.map Skill.name := by
        intro hmem
        exact hc (by simpa using hmem)
      simp [List.nodup_append, h, hnm]

theorem foldl_insertFirst_toFinset :
    ∀ (l acc : List Skill),
      ((l.foldl insertFirst acc).map Skill.name).toFinset =
        (acc.map Skill.name).toFinset ∪ (l.map Skill.name).toFinset := by
  intro l
  induction l with
  | nil => intro acc; simp
  | cons s rest ih =>
    intro acc
    rw [List.foldl_cons, ih]
    have hstep : ((insertFirst acc s).map Skill.name).toFinset =
        insert s.name (acc.map Skill.name).toFinset := by
      unfold insertFirst
      by_cases hc : (acc.map Skill.name).contains s.name = true
      · rw [if_pos hc]
        have hmem : s.name ∈ acc.map Skill.name := by simpa using hc
        rw [Finset.insert_eq_self.mpr (List.mem_toFinset.mpr hmem)]
      · rw [if_neg hc, List.map_append]
        rw [List.toFinset_append, Finset.union_comm, Finset.insert_eq]
        simp
    rw [hstep]
    rw [List.map_cons, List.toFinset_cons]
    ext x
    simp only [Finset.mem_union, Finset.mem_insert]
    tauto

/-! ### The claimed properties -/

/-- C7: discovery always inspects the root; with `fullDepth = false` a
directory that itself qualifies as a unit is not recursed into further
(its subdirectories cannot change the scan result), while with
`fullDepth = true` recursion continues regardless; in particular, for a
root-level marker file plus another marker two levels down,
`fullDepth = false` discovers only the root unit and `fullDepth = true`
discovers both. -/
theorem c7_depth_policy :
    (∀ (p : List String) (content : String) (f : DirForest)
       (acc : List Skill × List String),
       (parseSkillMd p content).isSome →
       scanTree false p (.node (some content) f) acc =
         scanTree false p (.node (some content) .nil) acc) ∧
    (findSkillsInDir depthTree false).map Skill.name = ["root"] ∧
    (findSkillsInDir depthTree true).map Skill.name = ["root", "nested"] := by
  refine ⟨?_, by decide, by decide⟩
  intro p content f acc _
  simp [scanTree]

/-- Witness for C7 at a concrete root: a qualifying root directory with a
child is scanned exactly like the same root with no children. -/
theorem c7_witness :
    scanTree false []
        (.node (some mdRoot) (.cons "x" (.node (some mdA) .nil) .nil))
        ([], []) =
      scanTree false [] (.node (some mdRoot) .nil) ([], []) :=
  c7_depth_policy.1 [] mdRoot (.cons "x" (.node (some mdA) .nil) .nil)
    ([], []) (by decide)

/-- C8: within one discovery pass the result equals the raw depth-first
unit sequence deduplicated first-occurrence-wins by name (later
duplicates dropped regardless of their content), so the returned names
are pairwise distinct and the length equals the number of unique
discovered names. -/
theorem c8_dedup_first_wins (t : DirTree) (fd : Bool) :
    findSkillsInDir t fd = keepFirstByName (rawScanTree fd [] t) ∧
    ((findSkillsInDir t fd).map Skill.name).Nodup ∧
    (findSkillsInDir t fd).length =
      ((rawScanTree fd [] t).map Skill.name).toFinset.card := by
  have h1 : findSkillsInDir t fd = keepFirstByName (rawScanTree fd [] t) := by
    unfold findSkillsInDir keepFirstByName
    exact congrArg Prod.fst (scanTree_eq_raw fd [] t [])
  refine ⟨h1, ?_, ?_⟩
  · rw [h1]
    exact foldl_insertFirst_nodup _ [] (by simp)
  · rw [h1]
    have hn := foldl_insertFirst_nodup (rawScanTree fd [] t) [] (by simp)
    have ht := foldl_insertFirst_toFinset (rawScanTree fd [] t) []
    unfold keepFirstByName
    calc (List.foldl insertFirst [] (rawScanTree fd [] t)).length
        = ((List.foldl insertFirst [] (rawScanTree fd [] t)).map
            Skill.name).length := (List.length_map _ _).symm
      _ = ((List.foldl insertFirst [] (rawScanTree fd [] t)).map
            Skill.name).toFinset.card := (List.toFinset_card_of_nodup hn).symm
      _ = ((rawScanTree fd [] t).map Skill.name).toFinset.card := by
          rw [ht]; simp

/-- Witness for C8 at a concrete tree with two directories both named
`a`: the second is dropped and one unit remains. -/
theorem c8_witness :
    findSkillsInDir dupTree true = keepFirstByName (rawScanTree true [] dupTree) ∧
    (findSkillsInDir dupTree true).length = 1 :=
  ⟨(c8_dedup_first_wins dupTree true).1,
   (c8_dedup_first_wins dupTree true).2.2.trans (by decide)⟩

/-- C10: a wildcard anywhere in the filter list (even alongside explicit
names) disables filtering, as does an empty list; a non-empty
wildcard-free list keeps exactly the skills whose name matches some
listed name case-insensitively. -/
theorem c10_filter_semantics (f : List String) (skills : List Skill) :
    (f.contains "*" = true → filterSkills f skills = skills) ∧
    (f = [] → filterSkills f skills = skills) ∧
    (f ≠ [] → f.contains "*" = false →
      ∀ s : Skill, s ∈ filterSkills f skills ↔
        s ∈ skills ∧ ∃ x ∈ f, jsToLower x = jsToLower s.name) := by
  refine ⟨?_, ?_, ?_⟩
  · intro hw
    have hm : "*" ∈ f := by simpa using hw
    rw [filterSkills, if_neg (by simp [hm])]
  · intro hf
    rw [filterSkills, if_neg (by simp [hf])]
  · intro hne hw s
    have hlen : 0 < f.length := List.length_pos.mpr hne
    have hnm : "*" ∉ f := by simpa using hw
    rw [filterSkills, if_pos (by simp [hlen, hnm])]
    rw [List.mem_filter]
    constructor
    · rintro ⟨hs, hc⟩
      refine ⟨hs, ?_⟩
      have : jsToLower s.name ∈ f.map jsToLower := by simpa using hc
      obtain ⟨x, hx, he⟩ := List.mem_map.mp this
      exact ⟨x, hx, he⟩
    · rintro ⟨hs, x, hx, he⟩
      refine ⟨hs, ?_⟩
      simpa using List.mem_map.mpr ⟨x, hx, he⟩

/-- Witness for C10: a wildcard alongside `a` installs everything, and an
explicit uppercase filter `A` keeps `a` but not `b`. -/
theorem c10_witness :
    filterSkills ["a", "*"] [skA, skB] = [skA, skB] ∧
    skA ∈ filterSkills ["A"] [skA, skB] ∧
    skB ∉ filterSkills ["A"] [skA, skB] := by
  refine ⟨(c10_filter_semantics ["a", "*"] [skA, skB]).1 (by decide), ?_, ?_⟩
  · exact ((c10_filter_semantics ["A"] [skA, skB]).2.2 (by decide) (by decide)
      skA).mpr ⟨by decide, "A", by decide, by decide⟩
  · intro hmem
    have h := ((c10_filter_semantics ["A"] [skA, skB]).2.2 (by decide)
      (by decide) skB).mp hmem
    rcases h.2 with ⟨x, hx, he⟩
    rcases List.mem_singleton.mp hx with rfl
    exact absurd he (by decide)

/-- C1 (corrected): the concrete scenario of the claim — discovered units
`{a, b, c}`, include list `{a, c}`, exclude list `{c}` — installs exactly
`{a, c}`, not `{a}`: the installer has no exclude list. -/
theorem c1_counterexample :
    (processEntry false (fun _ => none) entryC1 (localWorld treeABC)).entryUpdate =
      some ⟨["a", "c"], ["*"], none⟩ ∧
    (["a", "c"] : List String) ≠ ["a"] :=
  ⟨by decide, by decide⟩

/-- C1 (amended): the skill filter is a single include list (matched
case-insensitively; wildcard or empty list means no filtering); any
`exclude` key of the manifest entry is ignored by the destructuring, so
it never affects the outcome, and with include `{a, c}` over discovered
`{a, b, c}` the installed set is exactly `{a, c}`. -/
theorem c1_include_only (force : Bool) (old : String → Option StateEntry)
    (e : Entry) (w : SourceWorld) (x y : List String) :
    processEntry force old ⟨e.source, e.agents, e.skill, e.fullDepth, x⟩ w =
      processEntry force old ⟨e.source, e.agents, e.skill, e.fullDepth, y⟩ w ∧
    (processEntry false (fun _ => none) entryC1 (localWorld treeABC)).entryUpdate =
      some ⟨["a", "c"], ["*"], none⟩ :=
  ⟨rfl, by decide⟩

/-- C3: for a remote source, `prepareSource` returns the cache-skip
signal carrying hash `h` iff the force flag is unset, the prior record
has an entry for this source with non-null commit hash `h`, and the
remote head-hash query returns exactly `h`; in every other case
(mismatch, no cached entry, force set, or remote introspection failure)
the result is that of the fresh clone, with clone failure propagating as
the per-source error. -/
theorem c3_cache_skip_iff (force : Bool) (old : String → Option StateEntry)
    (source : String) (w : SourceWorld) (hremote : w.isLocal = false) :
    (∀ h : String,
      prepareSource force old source w = .ok (.cached h) ↔
        (force = false ∧ ∃ en, old source = some en ∧
          en.commitHash = some h ∧
          getRemoteCommitHash w.lsHeads w.lsAll = some h)) ∧
    ((∀ h : String, prepareSource force old source w ≠ .ok (.cached h)) →
      (w.clone = .error () → prepareSource force old source w = .error ()) ∧
      (∀ t hsh, w.clone = .ok (t, hsh) →
        prepareSource force old source w = .ok (.dir t hsh false))) := by
  constructor
  · intro h
    constructor
    · intro hp
      obtain ⟨-, hf, en, hen, hh, -, hr⟩ := prepareSource_cached_inv hp
      exact ⟨hf, en, hen, hh, hr⟩
    · rintro ⟨hf, en, hen, hh, hr⟩
      subst hf
      exact prepareSource_cached_of hremote hen hh
        (getRemoteCommitHash_ne_empty hr) hr
  · intro hnc
    have hcc : cachedCheck force old source w = none := by
      cases hcc : cachedCheck force old source w with
      | none => rfl
      | some h =>
        exact absurd ((prepareSource_cached_iff hremote).mpr hcc) (hnc h)
    rw [prepareSource_clone hremote hcc]
    constructor
    · intro hcl
      rw [hcl]
    · intro t hsh hcl
      rw [hcl]

/-- Witness for C3: the cache-skip fires for the recorded source `s3`
with matching remote hash, and a source without a record clones (here
the clone fails, giving the per-source error). -/
theorem c3_witness :
    prepareSource false old3 "s3" w3 = .ok (.cached "abc123") ∧
    prepareSource false old3 "s4" failWorld = .error () := by
  constructor
  · exact ((c3_cache_skip_iff false old3 "s3" w3 rfl).1 "abc123").mpr
      ⟨rfl, ⟨["a"], ["*"], some "abc123"⟩, by decide, by decide, by decide⟩
  · refine ((c3_cache_skip_iff false old3 "s4" failWorld rfl).2 ?_).1 rfl
    intro h hc
    obtain ⟨-, -, en, hen, -⟩ := prepareSource_cached_inv hc
    have h0 : old3 "s4" = none := by decide
    rw [h0] at hen
    exact Option.noConfusion hen

/-- C6: the two no-install outcomes stay distinct in the new record: a
cache-skip copies the prior entry for the source into the new record
unchanged, whereas zero units remaining after discovery and filtering
leaves no entry at all. -/
theorem c6_skip_vs_empty (force : Bool) (old : String → Option StateEntry)
    (e : Entry) (w : SourceWorld) :
    (∀ h, prepareSource force old e.source w = .ok (.cached h) →
      ∃ en, old e.source = some en ∧
        (processEntry force old e w).entryUpdate = some en) ∧
    (∀ t hsh lcl, prepareSource force old e.source w = .ok (.dir t hsh lcl) →
      filterSkills e.skill (findSkillsInDir t e.fullDepth) = [] →
      (processEntry force old e w).entryUpdate = none) := by
  constructor
  · intro h hp
    obtain ⟨-, -, en, hen, -⟩ := prepareSource_cached_inv hp
    refine ⟨en, hen, ?_⟩
    rw [processEntry_cached hp]
    exact hen
  · intro t hsh lcl hp hz
    rw [processEntry_zero hp hz]

/-- Witness for C6: the cached source `s3` keeps its recorded entry,
while a source resolving to an empty tree leaves no entry. -/
theorem c6_witness :
    (processEntry false old3 (entryPlain "s3") w3).entryUpdate =
      some ⟨["a"], ["*"], some "abc123"⟩ ∧
    (processEntry false (fun _ => none) (entryPlain "z")
        (localWorld treeEmpty)).entryUpdate = none := by
  constructor
  · have hp : prepareSource false old3 (entryPlain "s3").source w3 =
        .ok (.cached "abc123") :=
      prepareSource_cached_of rfl
        (show old3 "s3" = some ⟨["a"], ["*"], some "abc123"⟩ by decide)
        (by decide) (by decide) (by decide)
    obtain ⟨en, hen, hupd⟩ :=
      (c6_skip_vs_empty false old3 (entryPlain "s3") w3).1 "abc123" hp
    rw [hupd]
    exact hen.symm.trans (by decide)
  · exact (c6_skip_vs_empty false (fun _ => none) (entryPlain "z")
      (localWorld treeEmpty)).2 treeEmpty none true rfl (by decide)

/-- C5 (code bug): after a successful clone, the zero-units and success
paths invoke the temporary-directory cleanup, but when an
`installSkill` call throws, the catch block of `processEntry` does not —
the temporary clone directory is leaked on that failure path, counting a
failure. -/
theorem c5_cleanup_leak :
    (processEntry false (fun _ => none) c5entry c5world).hadTmp = true ∧
    (processEntry false (fun _ => none) c5entry c5world).failed = 1 ∧
    (processEntry false (fun _ => none) c5entry c5world).cleanupCalled = false ∧
    (processEntry false (fun _ => none) c5entry c5worldOk).cleanupCalled = true :=
  ⟨by decide, by decide, by decide, by decide⟩

/-- C2: each desired source is processed in isolation — the final state's
value at each source is exactly that source's own contribution, the
run-level failure counter is the sum of the per-source failures, and a
per-source failure (prepare error or install throw) carries the prior
entry forward (no entry when none existed) and counts exactly one
failure. -/
theorem c2_failure_isolation (force : Bool) (old : String → Option StateEntry)
    (jobs : List (Entry × SourceWorld))
    (hUniq : (jobs.map fun p => p.1.source).Nodup) :
    (∀ j ∈ jobs, (runEntries force old jobs).1 j.1.source =
      (processEntry force old j.1 j.2).entryUpdate) ∧
    ((runEntries force old jobs).2.failed =
      (jobs.map fun j => (processEntry force old j.1 j.2).failed).sum) ∧
    (∀ e w, processFails force old e w →
      (processEntry force old e w).entryUpdate = old e.source ∧
      (processEntry force old e w).failed = 1) := by
  refine ⟨?_, ?_, ?_⟩
  · intro j hj
    exact foldl_runStep_mem force old jobs _ j hj hUniq rfl
  · have hs := foldl_runStep_stats force old jobs ((fun _ => none), ⟨0, 0, 0⟩)
    unfold runEntries
    rw [hs]
    exact Nat.zero_add _
  · intro e w hf
    rcases hf with hp | ⟨t, hsh, lcl, hp, hne, k, hk, hlt⟩
    · rw [processEntry_err hp]
      exact ⟨rfl, rfl⟩
    · rw [processEntry_installFail hp hne hk hlt]
      exact ⟨rfl, rfl⟩

/-- Witness for C2: of three sources the middle one fails its clone; the
other two are fully installed and recorded, the failed one keeps its
prior entry, and the failure counter is 1. -/
theorem c2_witness :
    (runEntries false old2 c2jobs).1 "g1" =
      some ⟨["a"], ["*"], some "abc123"⟩ ∧
    (runEntries false old2 c2jobs).1 "g2" =
      some ⟨["keep"], ["*"], some "dead01"⟩ ∧
    (runEntries false old2 c2jobs).1 "g3" =
      some ⟨["b"], ["*"], some "beef02"⟩ ∧
    (runEntries false old2 c2jobs).2.failed = 1 := by
  have h := c2_failure_isolation false old2 c2jobs (by decide)
  have m1 : (entryPlain "g1", cloneWorld treeA "abc123") ∈ c2jobs := by
    unfold c2jobs
    exact List.mem_cons_self _ _
  have m2 : (entryPlain "g2", failWorld) ∈ c2jobs := by
    unfold c2jobs
    exact List.mem_cons_of_mem _ (List.mem_cons_self _ _)
  have m3 : (entryPlain "g3", cloneWorld treeB "beef02") ∈ c2jobs := by
    unfold c2jobs
    exact List.mem_cons_of_mem _ (List.mem_cons_of_mem _ (List.mem_cons_self _ _))
  exact ⟨(h.1 _ m1).trans (by decide), (h.1 _ m2).trans (by decide),
    (h.1 _ m3).trans (by decide), h.2.1.trans (by decide)⟩

/-- C4 (counterexample to the claim as stated): a manifest with one local
source installs again on the second run — local sources are never
cache-skipped — so the second run has one install and zero cache-hits. -/
theorem c4_counterexample :
    (runEntries false ((runEntries false (fun _ => none) c4jobsL).1)
        c4jobsL).2.installed = 1 ∧
    (runEntries false ((runEntries false (fun _ => none) c4jobsL).1)
        c4jobsL).2.skipped = 0 :=
  ⟨by decide, by decide⟩

/-- C4 (amended): for an unchanged manifest of remote sources that each
have, after the first run, a recorded entry with a non-empty commit hash
matching what the remote still reports, the second run performs zero
installs, reports a cache-hit for every source, and leaves the persisted
state mapping identical to the first run's. -/
theorem c4_idempotence (old0 : String → Option StateEntry)
    (jobs1 jobs2 : List (Entry × SourceWorld))
    (hman : jobs2.map Prod.fst = jobs1.map Prod.fst)
    (hcache : ∀ j ∈ jobs2, j.2.isLocal = false ∧
      ∃ en h, (runEntries false old0 jobs1).1 j.1.source = some en ∧
        en.commitHash = some h ∧ h ≠ "" ∧
        getRemoteCommitHash j.2.lsHeads j.2.lsAll = some h) :
    (runEntries false ((runEntries false old0 jobs1).1) jobs2).2.installed = 0 ∧
    (runEntries false ((runEntries false old0 jobs1).1) jobs2).2.skipped =
      jobs2.length ∧
    ∀ s, (runEntries false ((runEntries false old0 jobs1).1) jobs2).1 s =
      (runEntries false old0 jobs1).1 s := by
  have hproc : ∀ j ∈ jobs2,
      processEntry false ((runEntries false old0 jobs1).1) j.1 j.2 =
        ⟨(runEntries false old0 jobs1).1 j.1.source, 0, 1, 0, false, false⟩ := by
    intro j hj
    obtain ⟨hl, en, h, hen, hh, hne, hr⟩ := hcache j hj
    exact processEntry_cached (prepareSource_cached_of hl hen hh hne hr)
  have hstats := foldl_runStep_stats false ((runEntries false old0 jobs1).1)
    jobs2 ((fun _ => none), ⟨0, 0, 0⟩)
  refine ⟨?_, ?_, ?_⟩
  · show (jobs2.foldl (runStep false ((runEntries false old0 jobs1).1))
      ((fun _ => none), ⟨0, 0, 0⟩)).2.installed = 0
    rw [hstats]
    have h0 := sum_map_all_zero jobs2
      (fun j => (processEntry false ((runEntries false old0 jobs1).1)
        j.1 j.2).installed)
      (fun j hj => by
        show (processEntry false ((runEntries false old0 jobs1).1)
          j.1 j.2).installed = 0
        rw [hproc j hj])
    simpa using h0
  · show (jobs2.foldl (runStep false ((runEntries false old0 jobs1).1))
      ((fun _ => none), ⟨0, 0, 0⟩)).2.skipped = jobs2.length
    rw [hstats]
    have h1 := sum_map_all_one jobs2
      (fun j => (processEntry false ((runEntries false old0 jobs1).1)
        j.1 j.2).skipped)
      (fun j hj => by
        show (processEntry false ((runEntries false old0 jobs1).1)
          j.1 j.2).skipped = 1
        rw [hproc j hj])
    simpa using h1
  · intro s
    have hv : ∀ j ∈ jobs2,
        (processEntry false ((runEntries false old0 jobs1).1) j.1 j.2).entryUpdate =
          (runEntries false old0 jobs1).1 j.1.source := by
      intro j hj
      rw [hproc j hj]
    have hcw := foldl_runStep_cachedwrite false ((runEntries false old0 jobs1).1)
      jobs2 hv ((fun _ => none), ⟨0, 0, 0⟩) s
    show (jobs2.foldl (runStep false ((runEntries false old0 jobs1).1))
      ((fun _ => none), ⟨0, 0, 0⟩)).1 s = (runEntries false old0 jobs1).1 s
    rw [hcw]
    by_cases hmem : s ∈ jobs2.map (fun p => p.1.source) ∧
        ((runEntries false old0 jobs1).1 s).isSome
    · rw [if_pos hmem]
    · rw [if_neg hmem]
      by_cases hm2 : s ∈ jobs2.map (fun p => p.1.source)
      · exfalso
        obtain ⟨j, hj, hsrc⟩ := List.mem_map.mp hm2
        obtain ⟨hl, en, h, hen, -⟩ := hcache j hj
        exact hmem ⟨hm2, by rw [← hsrc, hen]; rfl⟩
      · have hsrcs : jobs2.map (fun p => p.1.source) =
            jobs1.map (fun p => p.1.source) := by
          have h1 : jobs2.map (fun p => p.1.source) =
              (jobs2.map Prod.fst).map Entry.source := by
            rw [List.map_map]
            rfl
          have h2 : jobs1.map (fun p => p.1.source) =
              (jobs1.map Prod.fst).map Entry.source := by
            rw [List.map_map]
            rfl
          rw [h1, h2, hman]
        have hm1 : s ∉ jobs1.map (fun p => p.1.source) := by
          rw [← hsrcs]
          exact hm2
        have hnone : (runEntries false old0 jobs1).1 s = none := by
          show (jobs1.foldl (runStep false old0)
            ((fun _ => none), ⟨0, 0, 0⟩)).1 s = none
          exact foldl_runStep_nowrite false old0 jobs1 s
            (fun j hj he => hm1 (he ▸ List.mem_map_of_mem _ hj)) _
        rw [hnone]

/-- Witness for C4: one remote source cloned at hash `abc123` in the
first run; the second run with the remote still at `abc123` has zero
installs, one cache-hit, and the same state at the source key. -/
theorem c4_witness :
    (runEntries false ((runEntries false (fun _ => none) c4jobs1).1)
        c4jobs2).2.installed = 0 ∧
    (runEntries false ((runEntries false (fun _ => none) c4jobs1).1)
        c4jobs2).2.skipped = 1 ∧
    (runEntries false ((runEntries false (fun _ => none) c4jobs1).1)
        c4jobs2).1 "r1" = (runEntries false (fun _ => none) c4jobs1).1 "r1" := by
  have h := c4_idempotence (fun _ => none) c4jobs1 c4jobs2 (by decide) ?_
  · exact ⟨h.1, h.2.1.trans (by decide), h.2.2 "r1"⟩
  · intro j hj
    rw [show c4jobs2 = [(entryPlain "r1",
        ⟨false, .error (), some "abc123\trefs/heads/main\n", none,
          .error (), none⟩)] from rfl] at hj
    rcases List.mem_singleton.mp hj with rfl
    exact ⟨rfl, ⟨["a"], ["*"], some "abc123"⟩, "abc123", by decide, by decide,
      by decide, by decide⟩

/-- C9: in symlink mode, a link already resolving to the canonical entry
is left untouched (idempotent); a link pointing elsewhere or a non-link
occupant is removed first and the relative link recreated; and if link
creation fails, the operation falls back to a recursive copy with a
warning, completing normally. -/
theorem c9_symlink_repair (canonical aD cD target : String) (occ : Occupant)
    (okFlag : Bool) (hself : aD ≠ cD) (hne : canonical ≠ target) :
    (occ = .link canonical →
      createSymlink canonical target occ okFlag = ⟨true, occ, false, false⟩ ∧
      installToAgent canonical aD cD target occ "symlink" okFlag =
        ⟨occ, false, false⟩) ∧
    ((∀ ex, occ = .link ex → ex ≠ canonical) → occ ≠ .absent → okFlag = true →
      createSymlink canonical target occ okFlag =
        ⟨true, .link canonical, true, false⟩ ∧
      installToAgent canonical aD cD target occ "symlink" okFlag =
        ⟨.link canonical, false, false⟩) ∧
    (okFlag = false → occ ≠ .link canonical →
      (createSymlink canonical target occ okFlag).warned = true ∧
      installToAgent canonical aD cD target occ "symlink" okFlag =
        ⟨.copyOf canonical, true, false⟩) := by
  refine ⟨?_, ?_, ?_⟩
  · rintro rfl
    constructor
    · simp [createSymlink, hne]
    · simp [installToAgent, createSymlink, hself, hne]
  · intro hex hab hok
    subst hok
    cases occ with
    | absent => exact absurd rfl hab
    | link ex =>
      have hexc : ex ≠ canonical := hex ex rfl
      constructor
      · simp [createSymlink, hne, hexc]
      · simp [installToAgent, createSymlink, hself, hne, hexc]
    | nonLink =>
      constructor
      · simp [createSymlink, hne]
      · simp [installToAgent, createSymlink, hself, hne]
    | copyOf src =>
      constructor
      · simp [createSymlink, hne]
      · simp [installToAgent, createSymlink, hself, hne]
  · intro hok hnl
    subst hok
    cases occ with
    | absent =>
      constructor
      · simp [createSymlink, hne]
      · simp [installToAgent, createSymlink, hself, hne]
    | link ex =>
      have hexc : ex ≠ canonical := fun he => hnl (by rw [he])
      constructor
      · simp [createSymlink, hne, hexc]
      · simp [installToAgent, createSymlink, hself, hne, hexc]
    | nonLink =>
      constructor
      · simp [createSymlink, hne]
      · simp [installToAgent, createSymlink, hself, hne]
    | copyOf src =>
      constructor
      · simp [createSymlink, hne]
      · simp [installToAgent, createSymlink, hself, hne]

/-- Witness for C9 at concrete paths: an up-to-date link is untouched, a
non-link occupant is replaced by the link, and a failing link creation
falls back to a copy. -/
theorem c9_witness :
    installToAgent "/c/sk/a" "/ag" "/c/sk" "/ag/a" (.link "/c/sk/a")
      "symlink" true = ⟨.link "/c/sk/a", false, false⟩ ∧
    installToAgent "/c/sk/a" "/ag" "/c/sk" "/ag/a" .nonLink
      "symlink" true = ⟨.link "/c/sk/a", false, false⟩ ∧
    installToAgent "/c/sk/a" "/ag" "/c/sk" "/ag/a" .nonLink
      "symlink" false = ⟨.copyOf "/c/sk/a", true, false⟩ :=
  ⟨((c9_symlink_repair "/c/sk/a" "/ag" "/c/sk" "/ag/a" (.link "/c/sk/a") true
      (by decide) (by decide)).1 rfl).2,
   ((c9_symlink_repair "/c/sk/a" "/ag" "/c/sk" "/ag/a" .nonLink true
      (by decide) (by decide)).2.1 (fun ex h => by cases h) (by decide) rfl).2,
   ((c9_symlink_repair "/c/sk/a" "/ag" "/c/sk" "/ag/a" .nonLink false
      (by decide) (by decide)).2.2 rfl (by decide)).2⟩

end SkillsNix
